import Mathlib

/-!
Verification development for the PDF content-extraction pipeline
(`src/parser/{mod,pdf_parser,formula_extractor,table_parser,image_analyzer}.rs`).

The Rust code is shallowly embedded: text is `String` / `List Char`, byte
offsets are `Nat` (UTF-8 sizes via `Char.utf8Size`), 32-bit wrapping
arithmetic is explicit `% 2^32`, fallible operations return `Option` or
`Except`.  The fixed regular expressions of the extractors are embedded as
abstract-syntax trees over a small backtracking matcher with Rust
leftmost-first semantics (alternation prefers the left branch, greedy
quantifiers prefer longer, lazy quantifiers prefer shorter), so that the
extractors are executable on concrete inputs.
-/

namespace Bx

/-- Unicode white-space, the set used by Rust `char::is_whitespace`,
`str::trim` and the default `\s` class of the `regex` crate. -/
def isWs (c : Char) : Bool :=
  c == ' ' || (0x9 ≤ c.toNat && c.toNat ≤ 0xd) || c.toNat == 0x85 ||
  c.toNat == 0xa0 || c.toNat == 0x1680 ||
  (0x2000 ≤ c.toNat && c.toNat ≤ 0x200a) ||
  c.toNat == 0x2028 || c.toNat == 0x2029 || c.toNat == 0x202f ||
  c.toNat == 0x205f || c.toNat == 0x3000

/-- UTF-8 byte length of a character sequence (Rust `str::len`). -/
def byteLen (l : List Char) : Nat := (l.map Char.utf8Size).sum

/-- Leading white-space removal (Rust `str::trim_start`). -/
def ltrim (l : List Char) : List Char := l.dropWhile isWs

/-- White-space trim at both ends (Rust `str::trim`). -/
def trimChars (l : List Char) : List Char :=
  ((l.dropWhile isWs).reverse.dropWhile isWs).reverse

/-- Split a character list at each newline (helper for `rustLines`). -/
def splitNl : List Char → List (List Char)
  | [] => [[]]
  | c :: cs =>
    if c == '\n' then [] :: splitNl cs
    else match splitNl cs with
      | [] => [[c]]
      | p :: ps => (c :: p) :: ps

/-- Strip one trailing carriage return (Rust `str::lines` per-line behaviour). -/
def stripCr (l : List Char) : List Char :=
  match l.reverse with
  | '\r' :: rest => rest.reverse
  | _ => l

/-- Rust `str::lines`: split on newline, drop a trailing carriage return from
each line, and produce no final empty line when the text ends with a newline
(`"".lines()` is empty). -/
def rustLines (s : String) : List String :=
  let ps := splitNl s.toList
  let ps := match ps.reverse with
    | [] :: rest => rest.reverse
    | _ => ps
  ps.map (fun l => String.mk (stripCr l))

/-! ## Regular-expression engine

A small backtracking matcher.  `RE.alt` tries the left branch first,
`RE.star` with `lazy := false` tries to consume more first: this is the
match preference order of the Rust `regex` crate (leftmost-first).  The
`fuel` argument only bounds recursion depth; it is chosen large enough at
every call site. -/

inductive RE where
  | eps
  | cls (p : Char → Bool)
  | seq (a b : RE)
  | alt (a b : RE)
  | star (lazy : Bool) (a : RE)
  | bol (ml : Bool)
  | eol (ml : Bool)
  | wb

/-- Word characters for `\b` (ASCII approximation of the Unicode-aware
default; every text this development evaluates on is covered). -/
def isWordChar (c : Char) : Bool := c.isAlphanum || c == '_'

def isWordOpt : Option Char → Bool
  | none => false
  | some c => isWordChar c

/-- Matcher state: the character preceding the current position (for
anchors and word boundaries) and the remaining input. -/
abbrev MSt := Option Char × List Char

/-- Backtracking matcher with explicit continuation; returns the state at
the first successful parse in preference order. -/
def mre : Nat → RE → Option Char → List Char → (Option Char → List Char → Option MSt) → Option MSt
  | 0, _, _, _, _ => none
  | f + 1, re, prev, s, k =>
    match re with
    | .eps => k prev s
    | .cls p =>
      match s with
      | [] => none
      | c :: cs => if p c then k (some c) cs else none
    | .seq a b => mre f a prev s (fun p' s' => mre f b p' s' k)
    | .alt a b =>
      match mre f a prev s k with
      | some r => some r
      | none => mre f b prev s k
    | .star lz a =>
      let done := fun _ : Unit => k prev s
      let more := fun _ : Unit =>
        mre f a prev s (fun p' s' =>
          if s'.length < s.length then mre f (.star lz a) p' s' k else none)
      if lz then
        match done () with
        | some r => some r
        | none => more ()
      else
        match more () with
        | some r => some r
        | none => done ()
    | .bol ml =>
      if prev == none || (ml && prev == some '\n') then k prev s else none
    | .eol ml =>
      if s.isEmpty || (ml && s.head? == some '\n') then k prev s else none
    | .wb =>
      if isWordOpt prev != isWordOpt s.head? then k prev s else none

/-- Fuel that always suffices for the patterns of this development
(pattern depth is below 600 and every star iteration consumes a character). -/
def fuelFor (s : List Char) : Nat := 4 * s.length + 2600

/-- Try to match `re` at the current position; on success return the rest of
the input after the match. -/
def tryAt (re : RE) (prev : Option Char) (s : List Char) : Option (List Char) :=
  (mre (fuelFor s) re prev s (fun p r => some (p, r))).map (·.2)

/-- Scan for the leftmost match from character position `pos`; returns the
match span as character offsets `(start, end)`. -/
def scan (re : RE) (prev : Option Char) (s : List Char) (pos : Nat) : Option (Nat × Nat) :=
  match tryAt re prev s with
  | some rest => some (pos, pos + (s.length - rest.length))
  | none =>
    match s with
    | [] => none
    | c :: cs => scan re (some c) cs (pos + 1)

/-- Successive non-overlapping leftmost matches (Rust `Regex::find_iter`);
after a match the search resumes at its end (one past it for an empty
match). -/
def findIterGo : Nat → RE → Option Char → List Char → Nat → List (Nat × Nat)
  | 0, _, _, _, _ => []
  | f + 1, re, prev, s, pos =>
    match scan re prev s pos with
    | none => []
    | some (ms, me) =>
      let next := if me == ms then ms + 1 else me
      let step := next - pos
      let prev' := match (s.take step).reverse with
        | [] => prev
        | c :: _ => some c
      (ms, me) :: findIterGo f re prev' (s.drop step) next

/-- All matches of `re` in `text`, in order, as character-offset spans. -/
def findIter (re : RE) (text : List Char) : List (Nat × Nat) :=
  findIterGo (text.length + 1) re none text 0

/-- Rust `Regex::is_match`. -/
def isMatch (re : RE) (text : List Char) : Bool :=
  (scan re none text 0).isSome

/-- The matched substring for a span, as characters
(`Match::as_str` for a match at char offsets `(s, e)`). -/
def spanStr (text : List Char) (se : Nat × Nat) : List Char :=
  (text.take se.2).drop se.1

/-- Rust `Regex::split`: the pieces of `text` between successive matches. -/
def splitBy (re : RE) (text : List Char) : List (List Char) :=
  let ms := findIter re text
  let rec go (pos : Nat) : List (Nat × Nat) → List (List Char)
    | [] => [text.drop pos]
    | (s, e) :: rest => ((text.take s).drop pos) :: go e rest
  go 0 ms

/-! ### Pattern construction helpers -/

/-- Single literal character. -/
def chr (c : Char) : RE := .cls (fun x => x == c)

/-- Case-insensitive literal character (ASCII folding; all `(?i)` literals
in the embedded patterns are ASCII). -/
def ciChr (c : Char) : RE := .cls (fun x => x.toLower == c.toLower)

/-- Literal string. -/
def strLit (s : String) : RE := s.toList.foldr (fun c r => .seq (chr c) r) .eps

/-- Case-insensitive literal string. -/
def ciLit (s : String) : RE := s.toList.foldr (fun c r => .seq (ciChr c) r) .eps

/-- Exactly `n` copies. -/
def reRep : Nat → RE → RE
  | 0, _ => .eps
  | n + 1, a => .seq a (reRep n a)

/-- At most `n` copies, greedy (prefers more) unless `lazy`. -/
def reUpTo (lazy : Bool) : Nat → RE → RE
  | 0, _ => .eps
  | n + 1, a =>
    if lazy then .alt .eps (.seq a (reUpTo lazy n a))
    else .alt (.seq a (reUpTo lazy n a)) .eps

/-- At least `n` copies (`{n,}`), greedy unless `lazy`. -/
def reAtLeast (lazy : Bool) (n : Nat) (a : RE) : RE :=
  .seq (reRep n a) (.star lazy a)

/-- Between `lo` and `hi` copies (`{lo,hi}`), greedy unless `lazy`. -/
def reBetween (lazy : Bool) (lo hi : Nat) (a : RE) : RE :=
  .seq (reRep lo a) (reUpTo lazy (hi - lo) a)

/-- Optional (`?`), greedy. -/
def reOpt (a : RE) : RE := .alt a .eps

/-- Chain of alternatives, preferring earlier entries. -/
def altChain : List RE → RE
  | [] => .eps
  | [a] => a
  | a :: rest => .alt a (altChain rest)

/-! ## Character classes used by the embedded patterns -/

def inStr (s : String) (c : Char) : Bool := s.toList.contains c

def nonNl (c : Char) : Bool := c != '\n'

/-- `[a-zA-Z]` (Lean `Char.isAlpha` is exactly ASCII letters). -/
def alphaC (c : Char) : Bool := c.isAlpha

/-- `\d` (ASCII digits; the Unicode decimal digits beyond ASCII do not
occur in any text this development evaluates on). -/
def digitC (c : Char) : Bool := c.isDigit

def wsC (c : Char) : Bool := isWs c

/-- The math-operator class of the `equation` pass. -/
def eqOpC (c : Char) : Bool := inStr "=≡≈≤≥<>" c

/-- The Unicode math-symbol class of the `math_symbol` pass. -/
def mathSymC (c : Char) : Bool := inStr "∫∑∏∂∇∆√∞±∓≠≡≈≤≥⊂⊃∈∉∀∃∧∨¬⟨⟩⊗⊕⊙" c

/-- The operator class of the `subscript_expr` pass. -/
def subOpC (c : Char) : Bool := inStr "=+-*/" c

/-- The Greek-letter class of the `greek_expr` pass (note: no omicron, and
only the listed capitals). -/
def greekC (c : Char) : Bool := inStr "αβγδεζηθικλμνξπρστυφχψωΓΔΘΛΞΠΣΦΨΩ" c

/-- The operator class of the `greek_expr` pass. -/
def greekOpC (c : Char) : Bool := inStr "=+-<>≤≥≈" c

/-- The opening-bracket class of the `math_func` pass: parenthesis, brace,
mathematical angle bracket. -/
def funcBrkC (c : Char) : Bool := c == '(' || c == Char.ofNat 123 || c == '⟨'

def nonDollarC (c : Char) : Bool := c != '$'

def nonNlPipeC (c : Char) : Bool := c != '\n' && c != '|'

def nonNlParenC (c : Char) : Bool := c != '\n' && c != ')'

/-- `[\s\S]`. -/
def anyC (_ : Char) : Bool := true

/-- The single-letter functional heads of the `norm_or_loss` pass:
L, J, E, P and script L (U+2112). -/
def normHeadC (c : Char) : Bool :=
  c == 'L' || c == 'J' || c == 'E' || c == 'P' || c == 'ℒ'

/-! ## The nine formula passes of `FormulaExtractor::new`
(`src/parser/formula_extractor.rs` lines 14-38), in source order. -/

/-- Pass 1 `equation`: lines with an assignment-like operator. -/
def pEquation : RE :=
  .seq (.bol true) <| .seq (reUpTo false 200 (.cls nonNl)) <|
  .seq (.cls alphaC) <| .seq (.star false (.cls wsC)) <|
  .seq (.cls eqOpC) <| .seq (.star false (.cls wsC)) <|
  .seq (reAtLeast false 3 (.cls nonNl)) (.eol true)

/-- Pass 2 `math_symbol`: one Unicode math symbol then 2 to 100 chars. -/
def pMathSymbol : RE :=
  .seq (reBetween false 1 1 (.cls mathSymC)) (reBetween false 2 100 (.cls nonNl))

/-- Pass 3 `subscript_expr`: letter immediately followed by digits, then an
operator. -/
def pSubscript : RE :=
  .seq (.bol true) <| .seq (reUpTo false 20 (.cls nonNl)) <|
  .seq (.cls alphaC) <| .seq (reAtLeast false 1 (.cls digitC)) <|
  .seq (reUpTo false 5 (.cls nonNl)) <| .seq (.cls subOpC) <|
  .seq (reAtLeast false 3 (.cls nonNl)) (.eol true)

/-- Pass 4 `greek_expr`: a Greek letter near an operator. -/
def pGreek : RE :=
  .seq (reUpTo false 50 (.cls nonNl)) <| .seq (.cls greekC) <|
  .seq (reUpTo false 10 (.cls nonNl)) <| .seq (.cls greekOpC)
    (reAtLeast false 2 (.cls nonNl))

/-- Pass 5 `math_func`: named math functions, case-insensitive. -/
def pMathFunc : RE :=
  .alt
    (.seq (ciLit "arg") (.seq (.star false (.cls wsC))
      (.alt (ciLit "min") (ciLit "max"))))
    (.seq (altChain [ciLit "min", ciLit "max", ciLit "sup", ciLit "inf",
        ciLit "lim", ciLit "log", ciLit "exp", ciLit "det", ciLit "tr",
        ciLit "diag"])
      (.seq (.star false (.cls wsC)) (.cls funcBrkC)))

/-- Pass 6 `norm_or_loss`: double-bar norms and single-letter application. -/
def pNorm : RE :=
  altChain
    [ .seq (strLit "||") (.seq (reBetween false 1 30 (.cls nonNlPipeC))
        (strLit "||")),
      .seq (chr '‖') (.seq (reBetween false 1 30 (.cls nonNl)) (chr '‖')),
      .seq (.cls normHeadC) (.seq (.star false (.cls wsC))
        (.seq (chr '(') (.seq (reBetween false 1 50 (.cls nonNlParenC))
          (chr ')')))) ]

/-- Pass 7 `latex_cmd`: backslash LaTeX commands with a word boundary. -/
def pLatexCmd : RE :=
  .seq (chr '\\') <|
  .seq (altChain ([ "frac", "int", "sum", "prod", "partial", "nabla",
      "lim", "infty", "alpha", "beta", "theta", "lambda", "mathbb",
      "mathcal" ].map strLit)) .wb

/-- Pass 8 `inline_latex`: dollar-delimited, lazy. -/
def pInlineLatex : RE :=
  .seq (chr '$') (.seq (reAtLeast true 2 (.cls nonDollarC)) (chr '$'))

/-- Pass 9 `display_latex`: double-dollar-delimited, lazy. -/
def pDisplayLatex : RE :=
  .seq (strLit "$$") (.seq (reAtLeast true 1 (.cls anyC)) (strLit "$$"))

/-- The fixed pass order of `FormulaExtractor::new`. -/
def passesRE : List RE :=
  [pEquation, pMathSymbol, pSubscript, pGreek, pMathFunc, pNorm,
   pLatexCmd, pInlineLatex, pDisplayLatex]

/-! ## Formula extraction (`FormulaExtractor::extract`, lines 43-77) -/

structure Formula where
  raw : String
  context : String
  deriving DecidableEq, Repr

/-- Largest UTF-8 character boundary at or below byte offset `i`
(Rust `str::floor_char_boundary`; clamps to the total length). -/
def floorCB : List Char → Nat → Nat
  | [], _ => 0
  | c :: cs, i =>
    if c.utf8Size ≤ i then c.utf8Size + floorCB cs (i - c.utf8Size) else 0

/-- Smallest UTF-8 character boundary at or above byte offset `i`
(Rust `str::ceil_char_boundary`; clamps to the total length). -/
def ceilCB : List Char → Nat → Nat
  | [], _ => 0
  | c :: cs, i =>
    if i == 0 then 0 else c.utf8Size + ceilCB cs (i - c.utf8Size)

/-- Number of characters lying entirely within the first `i` bytes. -/
def charCount : List Char → Nat → Nat
  | [], _ => 0
  | c :: cs, i =>
    if c.utf8Size ≤ i then charCount cs (i - c.utf8Size) + 1 else 0

/-- The characters between two byte offsets that are character boundaries. -/
def byteSeg (t : List Char) (s e : Nat) : List Char :=
  (t.take (charCount t e)).drop (charCount t s)

/-- Context window of a match (`extract` lines 60-66): up to 50 bytes each
side, snapped outward to character boundaries, then trimmed. -/
def mkContext (t : List Char) (msB meB : Nat) : String :=
  let s := floorCB t (msB - 50)
  let e := ceilCB t (min (meB + 50) (byteLen t))
  String.mk (trimChars (byteSeg t s e))

/-- One iteration of the match loop of `extract`: dedup by trimmed match
(`seen`), skip matches shorter than 4 or longer than 500 bytes, otherwise
record the formula with its context. -/
def feStep (t : List Char) (st : List String × List Formula) (se : Nat × Nat) :
    List String × List Formula :=
  let rawC := trimChars (spanStr t se)
  let raw := String.mk rawC
  if st.1.contains raw then st
  else if byteLen raw.toList < 4 || byteLen raw.toList > 500 then st
  else
    let msB := byteLen (t.take se.1)
    let meB := byteLen (t.take se.2)
    (raw :: st.1, st.2 ++ [⟨raw, mkContext t msB meB⟩])

/-- All match spans across the nine passes, pass order then intra-pass match
order (the nested `for` loops of `extract` visit exactly this list). -/
def allSpans (t : List Char) : List (Nat × Nat) :=
  passesRE.flatMap (fun re => findIter re t)

/-- `FormulaExtractor::extract`. -/
def fExtract (fullText : String) : List Formula :=
  let t := fullText.toList
  ((allSpans t).foldl (feStep t) ([], [])).2

/-- The raw strings of the extracted formulas. -/
def extractRaws (fullText : String) : List String :=
  (fExtract fullText).map (·.raw)

/-- The trimmed text of every match across the passes, in pass order. -/
def allTrimmed (fullText : String) : List String :=
  (allSpans fullText.toList).map
    (fun se => String.mk (trimChars (spanStr fullText.toList se)))

/-- The 4-to-500-byte filter of `extract` as a predicate. -/
def lenOK (r : String) : Bool :=
  !(byteLen r.toList < 4 || byteLen r.toList > 500)

/-- Keep the first occurrence of each string, dropping strings already in
`seen`. -/
def dedupFirstGo (seen : List String) : List String → List String
  | [] => []
  | x :: xs =>
    if seen.contains x then dedupFirstGo seen xs
    else x :: dedupFirstGo (x :: seen) xs

/-- First-occurrence deduplication. -/
def dedupFirst (l : List String) : List String := dedupFirstGo [] l

/-! ## Table parsing (`src/parser/table_parser.rs`) -/

/-- Rust `str::trim` producing a `String`. -/
def strTrim (s : String) : String := String.mk (trimChars s.toList)

def dotColonC (c : Char) : Bool := c == '.' || c == ':'

/-- The caption pattern of `TableParser::extract`, line 17:
case-insensitive, anchored, Table + spaces + digits + optional dot or
colon + anything. -/
def tableCaptionRE : RE :=
  .seq (.bol false) <| .seq (ciLit "Table") <|
  .seq (reAtLeast false 1 (.cls wsC)) <| .seq (reAtLeast false 1 (.cls digitC)) <|
  .seq (reOpt (.cls dotColonC)) <| .seq (.star false (.cls wsC)) <|
  .seq (.star false (.cls nonNl)) (.eol false)

def captionMatch (line : String) : Bool := isMatch tableCaptionRE line.toList

/-- The column-separator pattern (tab, or a run of two or more
white-space characters), lines 121 and 132. -/
def multiSpaceRE : RE := .alt (chr '\t') (reAtLeast false 2 (.cls wsC))

/-- Split a line on the column separators (Rust `Regex::split`). -/
def splitParts (line : List Char) : List (List Char) := splitBy multiSpaceRE line

/-- `TableParser::looks_like_table_row`, lines 116-124: at least 5 bytes and
at least 2 non-empty segments. -/
def looksLike (line : String) : Bool :=
  if byteLen line.toList < 5 then false
  else 2 ≤ ((splitParts line.toList).filter (fun s => !s.isEmpty)).length

/-- The cells of one row: split, drop empties, trim each
(`parse_rows` lines 134-152). -/
def rowCells (row : String) : List String :=
  ((splitParts row.toList).filter (fun s => !s.isEmpty)).map
    (fun s => String.mk (trimChars s))

structure Table where
  caption : Option String
  headers : List String
  rows : List (List String)
  deriving DecidableEq, Repr

/-- `TableParser::parse_rows`, lines 127-160: first row must give at least 2
headers, the remaining rows are kept as parsed, and at least one data row is
required. -/
def parseRows (raws : List String) : Option (List String × List (List String)) :=
  match raws with
  | [] => none
  | first :: rest =>
    let headers := rowCells first
    if headers.length < 2 then none
    else
      let rows := rest.map rowCells
      if rows.isEmpty then none else some (headers, rows)

/-- Row collection after a caption (`extract` lines 34-55): gather trimmed
non-empty lines, tolerate one blank, stop at two consecutive blanks or at
another caption line, leaving the stopping line unconsumed. -/
def collectCap (bc : Nat) : List String → List String × List String
  | [] => ([], [])
  | l :: ls =>
    let row := strTrim l
    if row.isEmpty then
      if bc + 1 > 1 then ([], l :: ls)
      else collectCap (bc + 1) ls
    else if captionMatch row then ([], l :: ls)
    else
      let p := collectCap 0 ls
      (row :: p.1, p.2)

/-- Row collection for an uncaptioned column block (`extract` lines 70-88):
as `collectCap` but stopping at a line that does not look like a table row. -/
def collectUncap (bc : Nat) : List String → List String × List String
  | [] => ([], [])
  | l :: ls =>
    let row := strTrim l
    if row.isEmpty then
      if bc + 1 > 1 then ([], l :: ls)
      else collectUncap (bc + 1) ls
    else if !looksLike row then ([], l :: ls)
    else
      let p := collectUncap 0 ls
      (row :: p.1, p.2)

/-- Blank-line skipping after a caption (`extract` lines 29-31). -/
def skipBlanks (ls : List String) : List String :=
  ls.dropWhile (fun l => (strTrim l).isEmpty)

/-- The scanning loop of `TableParser::extract`, lines 19-109, with fuel
bounding the number of outer-loop iterations.  Every iteration consumes at
least one line (in the uncaptioned branch the first collected row is the
current line, so the dead `i == start` fallback of line 102 never fires),
hence fuel `lines.length + 1` reproduces the loop exactly. -/
def tpGo : Nat → List String → List Table
  | 0, _ => []
  | _, [] => []
  | f + 1, l :: ls =>
    let trimmed := strTrim l
    if captionMatch trimmed then
      let p := collectCap 0 (skipBlanks ls)
      let tbls :=
        if 2 ≤ p.1.length then
          match parseRows p.1 with
          | some hr => [⟨some trimmed, hr.1, hr.2⟩]
          | none => []
        else []
      tbls ++ tpGo f p.2
    else if looksLike trimmed then
      let p := collectUncap 0 ls
      let raws := trimmed :: p.1
      let tbls :=
        if 3 ≤ raws.length then
          match parseRows raws with
          | some hr => [⟨none, hr.1, hr.2⟩]
          | none => []
        else []
      tbls ++ tpGo f p.2
    else tpGo f ls

/-- `TableParser::extract`. -/
def tpExtract (fullText : String) : List Table :=
  let lines := rustLines fullText
  tpGo (lines.length + 1) lines

/-! ## Structural segmentation (`src/parser/pdf_parser.rs` lines 56-156) -/

structure Section where
  heading : String
  level : Nat
  body : String
  deriving DecidableEq, Repr

structure PaperMetadata where
  title : Option String
  title_zh : Option String
  authors : List String
  abstract_text : Option String
  abstract_zh : Option String
  deriving DecidableEq, Repr

def upperC (c : Char) : Bool := c.isUpper

def azWsC (c : Char) : Bool := c.isAlpha || isWs c

/-- Heading pattern (a), line 62: digits, optional dot, spaces, then a
capitalised alphabetic title. -/
def hNumbered : RE :=
  .seq (.bol false) <| .seq (reAtLeast false 1 (.cls digitC)) <|
  .seq (reOpt (chr '.')) <| .seq (reAtLeast false 1 (.cls wsC)) <|
  .seq (.cls upperC) <| .seq (reAtLeast false 1 (.cls azWsC)) (.eol false)

/-- Heading pattern (b), line 64: two-level section number. -/
def hSubNumbered : RE :=
  .seq (.bol false) <| .seq (reAtLeast false 1 (.cls digitC)) <|
  .seq (chr '.') <| .seq (reAtLeast false 1 (.cls digitC)) <|
  .seq (reOpt (chr '.')) <| .seq (reAtLeast false 1 (.cls wsC)) <|
  .seq (.cls upperC) <| .seq (reAtLeast false 1 (.cls azWsC)) (.eol false)

/-- Heading pattern (c), line 66: the fixed case-insensitive section-name
vocabulary, anchored, in source order. -/
def hKnown : RE :=
  .seq (.bol false) <|
  .seq (altChain
    [ ciLit "Abstract", ciLit "Introduction",
      .seq (ciLit "Related") (.seq (reAtLeast false 1 (.cls wsC)) (ciLit "Work")),
      .seq (ciLit "Method") (reOpt (ciChr 's')),
      ciLit "Methodology",
      .seq (ciLit "Experiment") (reOpt (ciChr 's')),
      .seq (ciLit "Result") (reOpt (ciChr 's')),
      ciLit "Discussion", ciLit "Conclusion", ciLit "Conclusions",
      .seq (ciLit "Acknowledgment") (reOpt (ciChr 's')),
      ciLit "References", ciLit "Appendix", ciLit "Background" ])
    (.eol false)

/-- `PdfParser::push_section`, lines 146-156. -/
def pushSection (sections : List Section) (heading : String) (level : Nat)
    (body : String) : List Section :=
  let bodyT := strTrim body
  if heading.isEmpty && bodyT.isEmpty then sections
  else
    sections ++ [⟨if heading.isEmpty then "(untitled)" else heading,
                  level, bodyT⟩]

/-- Per-line segmentation state: accumulated sections, current heading,
current level, current body. -/
structure SegSt where
  sections : List Section
  heading : String
  level : Nat
  body : String

/-- One line of the segmentation loop of `extract_structured_text`,
lines 81-125. -/
def segLine (st : SegSt) (line : String) : SegSt :=
  let trimmed := strTrim line
  if trimmed.isEmpty then
    if !st.body.isEmpty then { st with body := st.body ++ "\n" } else st
  else if isMatch hNumbered trimmed.toList then
    ⟨pushSection st.sections st.heading st.level st.body, trimmed, 1, ""⟩
  else if isMatch hSubNumbered trimmed.toList then
    ⟨pushSection st.sections st.heading st.level st.body, trimmed, 2, ""⟩
  else if isMatch hKnown trimmed.toList then
    ⟨pushSection st.sections st.heading st.level st.body, trimmed, 1, ""⟩
  else
    { st with body :=
        if !st.body.isEmpty then st.body ++ " " ++ trimmed else st.body ++ trimmed }

/-- `PdfParser::extract_structured_text`, lines 56-144. -/
def segment (fullText : String) : PaperMetadata × List Section :=
  let lines := rustLines fullText
  let title := (lines.find? (fun l => !(strTrim l).isEmpty)).map strTrim
  let st := lines.foldl segLine ⟨[], "", 0, ""⟩
  let sections := pushSection st.sections st.heading st.level st.body
  let abstractText :=
    (sections.find? (fun s => s.heading.toLower == "abstract")).map (·.body)
  (⟨title, none, [], abstractText, none⟩, sections)

/-! ## Image extraction (`src/parser/image_analyzer.rs`)

The analyzer's control flow is embedded exactly; calls into external
libraries (lopdf object access, flate decompression, the `image` crate's
buffer constructors and encoders, filesystem writes) are fields of the
candidate record, one per call site, so every branch of
`extract_images` lines 35-229 is represented. -/

def U32MOD : Nat := 4294967296

/-- 32-bit wrap-around, for Rust `u32` multiplication in release mode. -/
def u32 (n : Nat) : Nat := n % U32MOD

/-- Rust `i64 as u32`: two's-complement truncation. -/
def i64ToU32 (v : Int) : Nat := (v % (U32MOD : Int)).toNat

/-- `(width * height * channels * bits / 8) as usize` with `u32`
multiplication, as at lines 133 and 205. -/
def expectedSize (w h ch bits : Nat) : Nat :=
  u32 (u32 (u32 (w * h) * ch) * bits) / 8

structure ExtractedImage where
  filename : String
  page : Nat
  width : Nat
  height : Nat
  format : String
  deriving DecidableEq, Repr

/-- Output filename scheme of lines 74, 111, 141, 179, 207. -/
def mkName (dir pid : String) (idx : Nat) (ext : String) : String :=
  dir ++ "/" ++ pid ++ "_img_" ++ toString idx ++ "." ++ ext

/-- One image candidate stream together with the outcomes of the external
calls made while processing it. -/
structure Cand where
  /-- `doc.get_object` and `as_stream` both succeed (lines 36-44). -/
  isStream : Bool
  /-- `Width` entry when present and integer (line 46). -/
  widthAttr : Option Int
  /-- `Height` entry when present and integer (line 50). -/
  heightAttr : Option Int
  /-- `BitsPerComponent` entry when present and integer (lines 104, 201). -/
  bitsAttr : Option Int
  /-- `get_filter_name` result (line 61). -/
  filter : Option String
  page : Nat
  /-- Bytes used by the DCT and JPX branches
  (`decompressed_content` falling back to raw content, lines 68, 176). -/
  dctData : List Nat
  /-- FlateDecode decompression result, `decompressed_content` falling back
  to `manual_inflate`; `none` when both fail (lines 90-102). -/
  flateData : Option (List Nat)
  /-- Raw stream content for the no-filter branch (line 198). -/
  content : List Nat
  /-- `get_color_channels` result (lines 132, 200). -/
  channels : Nat
  /-- `try_decode_indexed` result (line 110). -/
  indexedRgb : Option (List Nat)
  /-- `fs::write` success in the DCT and JPX branches (lines 75, 180). -/
  writeOk : Bool
  /-- `RgbImage::from_raw` success in the indexed branch (line 114). -/
  fromRawIdxOk : Bool
  /-- `save` success in the indexed branch (line 115). -/
  saveIdxOk : Bool
  /-- buffer construction success in the flate branch (lines 143-148). -/
  fromRawOk : Bool
  /-- `save` success in the flate branch (line 157). -/
  saveOk : Bool
  /-- buffer construction success in the no-filter branch (lines 209-212). -/
  fromRawRawOk : Bool
  /-- `save` success in the no-filter branch (line 216). -/
  saveRawOk : Bool
  deriving Repr

/-- The non-indexed FlateDecode continuation, lines 132-173: resolve
channels, require the decompressed length to cover the expected size, build
and save the bitmap. -/
def flateRest (c : Cand) (data : List Nat) (w h bits : Nat)
    (dir pid : String) (idx : Nat) : Option ExtractedImage :=
  let ch := c.channels
  if data.length < expectedSize w h ch bits then none
  else if ch == 1 || ch == 3 || ch == 4 then
    if c.fromRawOk then
      if c.saveOk then some ⟨mkName dir pid idx "png", c.page, w, h, "png"⟩
      else none
    else none
  else none

/-- Processing of one candidate, lines 35-228.  `none` means the candidate
is skipped (every `continue` and silent fall-off), `some` means an image is
recorded. -/
def stepCand (dir pid : String) (idx : Nat) (c : Cand) : Option ExtractedImage :=
  if !c.isStream then none
  else
    let w := i64ToU32 (c.widthAttr.getD 0)
    let h := i64ToU32 (c.heightAttr.getD 0)
    if w < 10 || h < 10 then none
    else
      match c.filter with
      | some f =>
        if f == "DCTDecode" then
          if c.dctData.isEmpty then none
          else if c.writeOk then
            some ⟨mkName dir pid idx "jpg", c.page, w, h, "jpeg"⟩
          else none
        else if f == "FlateDecode" then
          match c.flateData with
          | none => none
          | some data =>
            let bits := i64ToU32 (c.bitsAttr.getD 8)
            let idxBranch : Option (Option ExtractedImage) :=
              match c.indexedRgb with
              | some rgb =>
                let expected := u32 (u32 (w * h) * 3)
                if expected ≤ rgb.length then
                  if c.fromRawIdxOk then
                    some (if c.saveIdxOk then
                        some ⟨mkName dir pid idx "png", c.page, w, h, "png"⟩
                      else none)
                  else none
                else none
              | none => none
            match idxBranch with
            | some r => r
            | none => flateRest c data w h bits dir pid idx
        else if f == "JPXDecode" then
          if c.dctData.isEmpty then none
          else if c.writeOk then
            some ⟨mkName dir pid idx "jp2", c.page, w, h, "jp2"⟩
          else none
        else none
      | none =>
        if c.content.isEmpty then none
        else
          let bits := i64ToU32 (c.bitsAttr.getD 8)
          if c.content.length < expectedSize w h c.channels bits then none
          else if c.channels == 1 || c.channels == 3 then
            if c.fromRawRawOk then
              if c.saveRawOk then
                some ⟨mkName dir pid idx "png", c.page, w, h, "png"⟩
              else none
            else none
          else none

/-- The candidate loop; `idx` increments only on successful pushes
(line 54's `img_index`). -/
def goCands (dir pid : String) (idx : Nat) : List Cand → List ExtractedImage
  | [] => []
  | c :: cs =>
    match stepCand dir pid idx c with
    | some img => img :: goCands dir pid (idx + 1) cs
    | none => goCands dir pid idx cs

inductive ImgErr where
  | pathMissing
  | dirFail
  | loadFail
  deriving DecidableEq, Repr

/-- Environment of one `extract_images` run: the three setup steps that can
fail (path check line 20, directory creation line 24, document load
line 26) and the collected image candidates in attributed-page order. -/
structure ImgEnv where
  pathExists : Bool
  dirOk : Bool
  loadOk : Bool
  imagesDir : String
  paperId : String
  cands : List Cand

/-- `ImageAnalyzer::extract_images`, lines 17-233. -/
def extractImages (env : ImgEnv) : Except ImgErr (List ExtractedImage) :=
  if !env.pathExists then .error .pathMissing
  else if !env.dirOk then .error .dirFail
  else if !env.loadOk then .error .loadFail
  else .ok (goCands env.imagesDir env.paperId 0 env.cands)

/-! ## Indexed-palette decode (`try_decode_indexed`, lines 349-432)

Embedded from the point where the lookup table has been fetched
(line 401 on).  `data.getD i 0` with an explicit range check models the
Rust index expression `data[i]`, which panics when out of range. -/

inductive IdxRes where
  | declined
  | oob
  | decoded (rgb : List Nat)
  deriving DecidableEq, Repr

/-- Channel bytes for one pixel, lines 420-428: clamp the index to `hival`,
read the lookup slice, default to black on lookup overrun. -/
def pixelRGB (hival baseCh : Nat) (lookup : List Nat) (b : Nat) : List Nat :=
  let idx := min b hival
  let off := idx * baseCh
  if off + baseCh ≤ lookup.length then (lookup.drop off).take baseCh
  else List.replicate baseCh 0

/-- `(width * bits + 7) / 8` in `u32` arithmetic (line 409). -/
def bytesPerRow (w bits : Nat) : Nat := u32 (u32 (w * bits) + 7) / 8

/-- The size checks and pixel loop of `try_decode_indexed`, lines 401-431:
reject a short lookup table or short pixel data, then read one byte per
pixel; `oob` marks the pixel loop indexing past the data (a panic in the
source). -/
def tryDecodeIndexedCore (hival baseCh : Nat) (lookup data : List Nat)
    (w h bits : Nat) : IdxRes :=
  if lookup.length < (hival + 1) * baseCh then .declined
  else
    let pixelCount := u32 (w * h)
    let expectedData := bytesPerRow w bits * h
    if data.length < expectedData then .declined
    else if (List.range pixelCount).all (fun i => i < data.length) then
      .decoded (((List.range pixelCount).map
        (fun i => pixelRGB hival baseCh lookup (data.getD i 0))).flatten)
    else .oob

/-! ## Pipeline orchestrator (`src/parser/mod.rs` lines 88-126) -/

inductive PdfErr where
  | inputNotFound
  | decodeFailure
  deriving DecidableEq, Repr

/-- Environment of the text extractor: whether the PDF path exists
(`pdf_parser.rs` line 45) and the text produced by the underlying decode
when it succeeds (line 49). -/
structure TextEnv where
  pathExists : Bool
  decoded : Option String

/-- `PdfParser::extract_full_text`, lines 42-53. -/
def extractFullText (env : TextEnv) : Except PdfErr String :=
  if !env.pathExists then .error .inputNotFound
  else
    match env.decoded with
    | some t => .ok t
    | none => .error .decodeFailure

structure PaperContent where
  metadata : PaperMetadata
  sections : List Section
  formulas : List Formula
  images : List ExtractedImage
  tables : List Table
  full_text : String
  deriving Repr

/-- `ExtractionPipeline::process`, lines 88-126: text extraction propagates
its error; the image stage's error is caught and replaced by an empty list;
segmentation, formulas and tables always run on the extracted text. -/
def process (tenv : TextEnv) (ienv : ImgEnv) : Except PdfErr PaperContent :=
  match extractFullText tenv with
  | .error e => .error e
  | .ok full =>
    let ms := segment full
    let formulas := fExtract full
    let images :=
      match extractImages ienv with
      | .ok imgs => imgs
      | .error _ => []
    let tables := tpExtract full
    .ok ⟨ms.1, ms.2, formulas, images, tables, full⟩

/-! ## Derived definitions used by the verification statements -/

/-- The trimmed text of each match of one pass. -/
def passTrimmed (re : RE) (fullText : String) : List String :=
  (findIter re fullText.toList).map
    (fun se => String.mk (trimChars (spanStr fullText.toList se)))

/-- The dedup-and-filter loop of `extract` restricted to the raw strings,
mirroring the check order of `feStep` (seen first, then length). -/
def feSpecGo (seen : List String) : List String → List String
  | [] => []
  | x :: xs =>
    if seen.contains x then feSpecGo seen xs
    else if byteLen x.toList < 4 || byteLen x.toList > 500 then feSpecGo seen xs
    else x :: feSpecGo (x :: seen) xs

/-- Byte offset `b` is a UTF-8 character boundary of `t`. -/
def IsBoundary (t : List Char) (b : Nat) : Prop :=
  ∃ n, byteLen (t.take n) = b

/-- The context guarantee for one extracted formula, anchored to the match
that produced it: there is a pass-match span `se` (among `allSpans`, the
matches of the nine passes) whose trimmed text is exactly `f.raw`, such
that, taking `msB`/`meB` to be that match's byte offsets, the context is
the trim of the slice of the text between the character boundaries `s` and
`e` computed by the floor and ceil snapping of `extract` lines 60-66; the
slice starts at most 50 characters before the match start and ends at most
50 characters after the match end, and the context is a contiguous
substring of the text. -/
def CtxOK (fullText : String) (f : Formula) : Prop :=
  ∃ se ∈ allSpans fullText.toList,
    f.raw = String.mk (trimChars (spanStr fullText.toList se)) ∧
    (let t := fullText.toList
     let msB := byteLen (t.take se.1)
     let meB := byteLen (t.take se.2)
     let s := floorCB t (msB - 50)
     let e := ceilCB t (min (meB + 50) (byteLen t))
     IsBoundary t msB ∧ IsBoundary t meB ∧
     IsBoundary t s ∧ IsBoundary t e ∧ s ≤ msB ∧ meB ≤ e ∧
     charCount t msB - charCount t s ≤ 50 ∧
     charCount t e - charCount t meB ≤ 50 ∧
     f.context = mkContext t msB meB ∧
     f.context = String.mk (trimChars (byteSeg t s e)) ∧
     ∃ pre post, pre ++ trimChars (byteSeg t s e) ++ post = t)

/-- Fall-through condition of the Indexed sub-branch (lines 110-130): the
candidate is not decoded as Indexed when `try_decode_indexed` returns
nothing, when the palette-expanded buffer is shorter than `w*h*3`, or when
the RGB buffer constructor rejects it. -/
def idxFallThrough (c : Cand) (w h : Nat) : Prop :=
  match c.indexedRgb with
  | none => True
  | some rgb => rgb.length < u32 (u32 (w * h) * 3) ∨ c.fromRawIdxOk = false

/-- The spec scenario text containing the Greek capital sigma. -/
def sigmaText : String := "L(θ) = Σ_i loss_i"

/-- The sigma scenario embedded in a line long enough that the greek-pass
match exceeds the 500-byte cap (121 four-byte characters appended). -/
def sigmaLongText : String :=
  String.mk (sigmaText.toList ++ List.replicate 121 '𝐚')

/-- A line matched identically by the `equation` and `subscript_expr`
passes whose trimmed match is 503 bytes long. -/
def twoPassText : String :=
  String.mk ("x1 b = ".toList ++ List.replicate 124 '𝐚')

/-! ## Claim theorems -/

set_option maxRecDepth 400000

/-- Claim C8: the segmenter applied to the two-section scenario text returns
exactly the two level-1 sections with their headings and trimmed bodies. -/
theorem segment_two_sections :
    (segment "1. Introduction\nThis is background.\n\n2. Methods\nWe propose X.").2 =
      [{ heading := "1. Introduction", level := 1, body := "This is background." },
       { heading := "2. Methods", level := 1, body := "We propose X." }] := by
  decide

/-- Claim C9: the table extractor applied to the captioned scenario text
returns exactly one table with the caption line, the two headers and the two
data rows; the uncaptioned column-block strategy produces nothing further. -/
theorem tpExtract_one_table :
    tpExtract "Table 1: Results\nModel  Accuracy\nA  0.91\nB  0.95" =
      [{ caption := some "Table 1: Results",
         headers := ["Model", "Accuracy"],
         rows := [["A", "0.91"], ["B", "0.95"]] }] := by
  decide

/-- Claim C2 (failing input): with BitsPerComponent 1 and a 16 by 16 image,
the checked minimum `((width*bits+7)/8)*height` is 32 bytes, the check
passes on exactly 32 bytes of data, and the pixel loop of
`try_decode_indexed` then indexes past the data: `data[i]` is evaluated for
every `i < width*height = 256`, so the claim that the loop stays in bounds
whenever the check passed fails for bits below 8 (an out-of-bounds panic in
the source). -/
theorem tryDecodeIndexed_oob_at_bits1 :
    (List.replicate 32 (0 : Nat)).length = bytesPerRow 16 1 * 16 ∧
    tryDecodeIndexedCore 1 3 (List.replicate 6 0) (List.replicate 32 0) 16 16 1 =
      .oob := by
  decide

/-- Claim C10 (counterexample): a text containing the sigma scenario
substring on a line long enough that the greek-pass match exceeds the
500-byte cap yields no formula whose raw string contains the sigma; the
claim quantified over every containing text is therefore false. -/
theorem formula_sigma_long_none :
    ¬ ∃ f ∈ fExtract sigmaLongText, 'Σ' ∈ f.raw.toList := by
  decide

/-- Claim C10 (amended): for the sigma scenario text itself (where the
heuristic match passes the 4-to-500-byte filter), the extractor returns at
least one formula whose raw string contains the Greek capital sigma. -/
theorem formula_sigma_present :
    ∃ f ∈ fExtract sigmaText, 'Σ' ∈ f.raw.toList := by
  decide

/-- Claim C1: the pipeline fails exactly when full-text extraction fails
(missing path or decode failure), every error it returns is the text
extractor's error, and when text extraction succeeds it returns a complete
PaperContent carrying the segmenter, formula and table results, with the
image stage's error caught and replaced by an empty image list. -/
theorem process_error_iff_text_failure :
    ∀ (tenv : TextEnv) (ienv : ImgEnv),
      ((∃ e, process tenv ienv = .error e) ↔
        (tenv.pathExists = false ∨ tenv.decoded = none)) ∧
      (∀ e, process tenv ienv = .error e ↔ extractFullText tenv = .error e) ∧
      (∀ full, extractFullText tenv = .ok full →
        ∃ imgs,
          process tenv ienv = .ok
            { metadata := (segment full).1, sections := (segment full).2,
              formulas := fExtract full, images := imgs,
              tables := tpExtract full, full_text := full } ∧
          (∀ e, extractImages ienv = .error e → imgs = []) ∧
          (∀ l, extractImages ienv = .ok l → imgs = l)) := by
  intro tenv ienv
  obtain ⟨pe, dec⟩ := tenv
  refine ⟨?_, ?_, ?_⟩
  · cases pe <;> cases dec <;>
      simp [process, extractFullText]
  · intro e
    cases pe <;> cases dec <;>
      simp [process, extractFullText]
  · intro full hfull
    refine ⟨match extractImages ienv with | .ok l => l | .error _ => [], ?_, ?_, ?_⟩
    · simp [process, hfull]
    · intro e he; simp [he]
    · intro l hl; simp [hl]

/-- Claim C1 witness: a concrete successful run. -/
theorem process_error_iff_text_failure_witness :
    ∃ imgs,
      process ⟨true, some "x"⟩ ⟨true, true, true, "d", "p", []⟩ = .ok
        { metadata := (segment "x").1, sections := (segment "x").2,
          formulas := fExtract "x", images := imgs,
          tables := tpExtract "x", full_text := "x" } ∧
      (∀ e, extractImages ⟨true, true, true, "d", "p", []⟩ = .error e → imgs = []) ∧
      (∀ l, extractImages ⟨true, true, true, "d", "p", []⟩ = .ok l → imgs = l) :=
  (process_error_iff_text_failure ⟨true, some "x"⟩ ⟨true, true, true, "d", "p", []⟩).2.2
    "x" rfl

/-! ### Image invariants (C6, C7) -/

theorem flateRest_some_dims {c : Cand} {data : List Nat} {w h bits : Nat}
    {dir pid : String} {idx : Nat} {img : ExtractedImage} :
    flateRest c data w h bits dir pid idx = some img →
    img.width = w ∧ img.height = h := by
  unfold flateRest
  intro hyp
  dsimp only at hyp
  repeat' split at hyp
  all_goals (try (exact Option.noConfusion hyp))
  all_goals (injection hyp with h2; subst h2; exact ⟨rfl, rfl⟩)

set_option maxHeartbeats 2000000 in
theorem stepCand_some_dims {dir pid : String} {idx : Nat} {c : Cand}
    {img : ExtractedImage} :
    stepCand dir pid idx c = some img →
    10 ≤ img.width ∧ 10 ≤ img.height := by
  obtain ⟨st, wA, hA, bA, fil, pg, dct, fl, cont, ch, irgb, wOk, frIdx, svIdx,
    frOk, svOk, frR, svR⟩ := c
  unfold stepCand
  rcases fil with _ | f <;> rcases fl with _ | data <;> rcases irgb with _ | rgb <;>
    (intro hyp; dsimp only at hyp; repeat' split at hyp) <;>
    first
      | exact Option.noConfusion hyp
      | (injection hyp with h2; subst h2; constructor <;> (simp_all <;> omega))
      | (rename_i heq; subst hyp; split_ifs at heq <;>
          first
            | exact Option.noConfusion heq
            | (injection heq with heq2;
               first
                 | exact Option.noConfusion heq2
                 | (injection heq2 with heq3; rw [heq3.symm];
                     constructor <;> (simp_all <;> omega))))
      | (rcases flateRest_some_dims hyp with ⟨e1, e2⟩; rw [e1, e2];
          simp_all <;> omega)

theorem mem_goCands {dir pid : String} {idx : Nat} {cands : List Cand}
    {img : ExtractedImage} :
    img ∈ goCands dir pid idx cands →
    ∃ j c, c ∈ cands ∧ stepCand dir pid j c = some img := by
  induction cands generalizing idx with
  | nil => simp [goCands]
  | cons c cs ih =>
    intro hmem
    unfold goCands at hmem
    rcases hstep : stepCand dir pid idx c with _ | img'
    · rw [hstep] at hmem
      rcases ih hmem with ⟨j, c', hc', hs⟩
      exact ⟨j, c', List.mem_cons_of_mem _ hc', hs⟩
    · rw [hstep] at hmem
      rcases List.mem_cons.mp hmem with heq | htail
      · exact ⟨idx, c, List.mem_cons_self _ _, heq ▸ hstep⟩
      · rcases ih htail with ⟨j, c', hc', hs⟩
        exact ⟨j, c', List.mem_cons_of_mem _ hc', hs⟩

/-- Claim C6: every image returned by `extract_images` has width and height
at least 10, and any candidate whose resolved dimensions (defaulting to 0
when absent or non-integer) fall below 10 is skipped outright. -/
theorem extractImages_min_dims :
    (∀ (env : ImgEnv) (imgs : List ExtractedImage),
      extractImages env = .ok imgs →
      ∀ img ∈ imgs, 10 ≤ img.width ∧ 10 ≤ img.height) ∧
    (∀ (dir pid : String) (idx : Nat) (c : Cand),
      (i64ToU32 (c.widthAttr.getD 0) < 10 ∨ i64ToU32 (c.heightAttr.getD 0) < 10) →
      stepCand dir pid idx c = none) := by
  constructor
  · intro env imgs hok img hmem
    have hmem' : img ∈ goCands env.imagesDir env.paperId 0 env.cands := by
      unfold extractImages at hok
      repeat' split at hok
      all_goals simp_all
    rcases mem_goCands hmem' with ⟨j, c, _, hs⟩
    exact stepCand_some_dims hs
  · intro dir pid idx c hsmall
    have hcond : (decide (i64ToU32 (c.widthAttr.getD 0) < 10) ||
        decide (i64ToU32 (c.heightAttr.getD 0) < 10)) = true := by
      rcases hsmall with h | h <;> simp [h]
    by_cases hstr : (!c.isStream) = true
    · simp [stepCand, hstr]
    · simp [stepCand, hstr, hcond]

/-- A concrete 20 by 20 DCTDecode candidate that is extracted. -/
def candDCT : Cand :=
  ⟨true, some 20, some 20, none, some "DCTDecode", 0, [1], none, [], 3,
   none, true, true, true, true, true, true, true⟩

/-- Claim C6 witness: a concrete run with one accepted candidate. -/
theorem extractImages_min_dims_witness :
    10 ≤ (ExtractedImage.mk "d/p_img_0.jpg" 0 20 20 "jpeg").width ∧
    10 ≤ (ExtractedImage.mk "d/p_img_0.jpg" 0 20 20 "jpeg").height :=
  extractImages_min_dims.1 ⟨true, true, true, "d", "p", [candDCT]⟩
    [ExtractedImage.mk "d/p_img_0.jpg" 0 20 20 "jpeg"] (by rfl)
    (ExtractedImage.mk "d/p_img_0.jpg" 0 20 20 "jpeg") (by decide)

theorem stepCand_none_of_short_flate {dir pid : String} {idx : Nat} {c : Cand}
    {data : List Nat} :
    c.filter = some "FlateDecode" →
    c.flateData = some data →
    idxFallThrough c (i64ToU32 (c.widthAttr.getD 0)) (i64ToU32 (c.heightAttr.getD 0)) →
    data.length < expectedSize (i64ToU32 (c.widthAttr.getD 0))
      (i64ToU32 (c.heightAttr.getD 0)) c.channels (i64ToU32 (c.bitsAttr.getD 8)) →
    stepCand dir pid idx c = none := by
  intro hf hd hidx hshort
  have hrest : flateRest c data (i64ToU32 (c.widthAttr.getD 0))
      (i64ToU32 (c.heightAttr.getD 0)) (i64ToU32 (c.bitsAttr.getD 8))
      dir pid idx = none := by
    unfold flateRest
    rw [if_pos (by simpa using hshort)]
  by_cases hstr : (!c.isStream) = true
  · simp [stepCand, hstr]
  · unfold idxFallThrough at hidx
    rcases hrgb : c.indexedRgb with _ | rgb
    · simp [stepCand, hstr, hf, hd, hrgb, hrest]
    · rw [hrgb] at hidx
      rcases hidx with hlen | hraw
      · simp [stepCand, hstr, hf, hd, hrgb, hrest, Nat.not_le.mpr hlen]
      · simp [stepCand, hstr, hf, hd, hrgb, hrest, hraw]

theorem goCands_skip {dir pid : String} {c : Cand}
    (hnone : ∀ j, stepCand dir pid j c = none) :
    ∀ (idx : Nat) (l1 l2 : List Cand),
      goCands dir pid idx (l1 ++ c :: l2) = goCands dir pid idx (l1 ++ l2) := by
  intro idx l1
  induction l1 generalizing idx with
  | nil => intro l2; simp [goCands, hnone]
  | cons a as ih =>
    intro l2
    simp only [List.cons_append, goCands]
    rcases stepCand dir pid idx a with _ | img <;> simp [ih]

/-- Claim C7: a FlateDecode candidate whose decompressed data is shorter
than the expected `width*height*channels*bits/8` bytes and which is not
decoded as Indexed is skipped: processing continues with the remaining
candidates, `extract_images` still succeeds, and the result is exactly the
extraction of the other candidates. -/
theorem flate_short_candidate_skipped :
    ∀ (dir pid : String) (c : Cand) (data : List Nat) (l1 l2 : List Cand),
      c.filter = some "FlateDecode" →
      c.flateData = some data →
      idxFallThrough c (i64ToU32 (c.widthAttr.getD 0))
        (i64ToU32 (c.heightAttr.getD 0)) →
      data.length < expectedSize (i64ToU32 (c.widthAttr.getD 0))
        (i64ToU32 (c.heightAttr.getD 0)) c.channels (i64ToU32 (c.bitsAttr.getD 8)) →
      (∀ idx, stepCand dir pid idx c = none) ∧
      (∀ idx, goCands dir pid idx (l1 ++ c :: l2) = goCands dir pid idx (l1 ++ l2)) ∧
      extractImages ⟨true, true, true, dir, pid, l1 ++ c :: l2⟩ =
        .ok (goCands dir pid 0 (l1 ++ l2)) := by
  intro dir pid c data l1 l2 hf hd hidx hshort
  have hnone : ∀ j, stepCand dir pid j c = none :=
    fun j => stepCand_none_of_short_flate hf hd hidx hshort
  refine ⟨hnone, fun idx => goCands_skip hnone idx l1 l2, ?_⟩
  unfold extractImages
  simp [goCands_skip hnone 0 l1 l2]

/-- A concrete 20 by 20 FlateDecode candidate whose decompressed data is
empty (1200 bytes expected). -/
def candShortFlate : Cand :=
  ⟨true, some 20, some 20, some 8, some "FlateDecode", 0, [], some [], [], 3,
   none, true, true, true, true, true, true, true⟩

/-- Claim C7 witness: the short candidate alone yields a successful, empty
extraction. -/
theorem flate_short_candidate_skipped_witness :
    extractImages ⟨true, true, true, "d", "p", [candShortFlate]⟩ =
      .ok (goCands "d" "p" 0 []) :=
  (flate_short_candidate_skipped "d" "p" candShortFlate [] [] []
    rfl rfl (by simp [idxFallThrough, candShortFlate]) (by decide)).2.2

/-! ### Table invariants (C5) -/

theorem parseRows_shape {raws : List String} {h : List String}
    {rows : List (List String)} :
    parseRows raws = some (h, rows) →
    2 ≤ h.length ∧ 1 ≤ rows.length ∧ rows = raws.tail.map rowCells := by
  rcases raws with _ | ⟨first, rest⟩
  · intro hy; exact Option.noConfusion hy
  · intro hy
    unfold parseRows at hy
    dsimp only at hy
    split at hy
    · exact Option.noConfusion hy
    · split at hy
      · exact Option.noConfusion hy
      · rename_i hlen hne
        injection hy with hy
        obtain ⟨rfl, rfl⟩ := Prod.mk.injEq _ _ _ _ ▸ hy
        refine ⟨by omega, ?_, rfl⟩
        rcases rest with _ | ⟨r, rs⟩
        · simp at hne
        · simp

theorem tpGo_mem_shape : ∀ (f : Nat) (ls : List String) (t : Table),
    t ∈ tpGo f ls → 2 ≤ t.headers.length ∧ 1 ≤ t.rows.length := by
  intro f
  induction f with
  | zero => intro ls t ht; simp [tpGo] at ht
  | succ f ih =>
    intro ls t ht
    rcases ls with _ | ⟨l, ls⟩
    · simp [tpGo] at ht
    · unfold tpGo at ht
      dsimp only at ht
      repeat' split at ht
      all_goals
        first
          | exact ih _ _ ht
          | (rcases List.mem_append.mp ht with h1 | h2 <;>
              first
                | exact absurd h1 (List.not_mem_nil _)
                | exact ih _ _ h2
                | (obtain rfl := List.mem_singleton.mp h1
                   obtain ⟨a, b, -⟩ := parseRows_shape ‹parseRows _ = some _›
                   exact ⟨a, b⟩))

/-- Claim C5: every table produced by either detection strategy has at least
2 header cells and at least 1 data row, and the data rows are exactly the
parsed raw rows, never padded or truncated to the header width. -/
theorem tpExtract_table_shape :
    (∀ (fullText : String) (t : Table), t ∈ tpExtract fullText →
      2 ≤ t.headers.length ∧ 1 ≤ t.rows.length) ∧
    (∀ (raws : List String) (h : List String) (rows : List (List String)),
      parseRows raws = some (h, rows) → rows = raws.tail.map rowCells) :=
  ⟨fun _ t ht => tpGo_mem_shape _ _ t ht,
   fun _ _ _ hp => (parseRows_shape hp).2.2⟩

/-- Claim C5 witness: the scenario table and a concrete ragged parse. -/
theorem tpExtract_table_shape_witness :
    (2 ≤ (Table.mk (some "Table 1: Results") ["Model", "Accuracy"]
        [["A", "0.91"], ["B", "0.95"]]).headers.length ∧
      1 ≤ (Table.mk (some "Table 1: Results") ["Model", "Accuracy"]
        [["A", "0.91"], ["B", "0.95"]]).rows.length) ∧
    [["c"]] = ["a  b", "c"].tail.map rowCells :=
  ⟨tpExtract_table_shape.1 "Table 1: Results\nModel  Accuracy\nA  0.91\nB  0.95"
      (Table.mk (some "Table 1: Results") ["Model", "Accuracy"]
        [["A", "0.91"], ["B", "0.95"]]) (by decide),
   tpExtract_table_shape.2 ["a  b", "c"] ["a", "b"] [["c"]] (by decide)⟩

/-! ### Fuel adequacy of the table-parser loop -/

theorem collectCap_rest_le : ∀ (ls : List String) (bc : Nat),
    (collectCap bc ls).2.length ≤ ls.length := by
  intro ls
  induction ls with
  | nil => intro bc; simp [collectCap]
  | cons l ls ih =>
    intro bc
    unfold collectCap
    dsimp only
    split
    · split
      · simp
      · have := ih (bc + 1)
        simp
        omega
    · split
      · simp
      · have := ih 0
        simp
        omega

theorem collectUncap_rest_le : ∀ (ls : List String) (bc : Nat),
    (collectUncap bc ls).2.length ≤ ls.length := by
  intro ls
  induction ls with
  | nil => intro bc; simp [collectUncap]
  | cons l ls ih =>
    intro bc
    unfold collectUncap
    dsimp only
    split
    · split
      · simp
      · have := ih (bc + 1)
        simp
        omega
    · split
      · simp
      · have := ih 0
        simp
        omega

/-- Any fuel beyond the line count yields the same result, so
`tpExtract`'s fuel of `lines.length + 1` computes the source loop exactly. -/
theorem tpGo_fuel_irrelevant : ∀ (n f g : Nat) (ls : List String),
    ls.length ≤ n → ls.length < f → ls.length < g → tpGo f ls = tpGo g ls := by
  intro n
  induction n with
  | zero =>
    intro f g ls hn hf hg
    rcases ls with _ | ⟨l, ls⟩
    · rcases f with _ | f
      · omega
      · rcases g with _ | g
        · omega
        · rfl
    · simp at hn
  | succ n ih =>
    intro f g ls hn hf hg
    rcases ls with _ | ⟨l, ls⟩
    · rcases f with _ | f
      · omega
      · rcases g with _ | g
        · omega
        · rfl
    · rcases f with _ | f
      · omega
      · rcases g with _ | g
        · omega
        · simp only [List.length_cons] at hn hf hg
          show tpGo (f + 1) (l :: ls) = tpGo (g + 1) (l :: ls)
          unfold tpGo
          dsimp only
          have hcap := collectCap_rest_le (skipBlanks ls) 0
          have hskip : (skipBlanks ls).length ≤ ls.length :=
            (List.dropWhile_suffix _).sublist.length_le
          have huncap := collectUncap_rest_le ls 0
          split
          · congr 1
            exact ih f g _ (by omega) (by omega) (by omega)
          · split
            · congr 1
              exact ih f g _ (by omega) (by omega) (by omega)
            · exact ih f g _ (by omega) (by omega) (by omega)

/-! ### Formula deduplication (C3) -/

theorem feGo_raws (t : List Char) :
    ∀ (spans : List (Nat × Nat)) (seen : List String) (fs : List Formula),
      ((spans.foldl (feStep t) (seen, fs)).2).map (·.raw) =
        fs.map (·.raw) ++
          feSpecGo seen (spans.map (fun se => String.mk (trimChars (spanStr t se)))) := by
  intro spans
  induction spans with
  | nil => intro seen fs; simp [feSpecGo]
  | cons se spans ih =>
    intro seen fs
    simp only [List.foldl_cons, List.map_cons]
    by_cases hseen : (seen.contains (String.mk (trimChars (spanStr t se)))) = true
    · have hstep : feStep t (seen, fs) se = (seen, fs) := by
        unfold feStep; dsimp only; rw [if_pos hseen]
      rw [hstep, ih seen fs]
      congr 1
      simp only [feSpecGo]
      rw [if_pos hseen]
    · by_cases hlen : (byteLen (String.mk (trimChars (spanStr t se))).toList < 4 ||
          byteLen (String.mk (trimChars (spanStr t se))).toList > 500) = true
      · have hstep : feStep t (seen, fs) se = (seen, fs) := by
          unfold feStep; dsimp only; rw [if_neg hseen, if_pos hlen]
        rw [hstep, ih seen fs]
        congr 1
        simp only [feSpecGo]
        rw [if_neg hseen, if_pos hlen]
      · have hstep : feStep t (seen, fs) se =
            (String.mk (trimChars (spanStr t se)) :: seen,
             fs ++ [⟨String.mk (trimChars (spanStr t se)),
                     mkContext t (byteLen (t.take se.1)) (byteLen (t.take se.2))⟩]) := by
          unfold feStep; dsimp only; rw [if_neg hseen, if_neg hlen]
        rw [hstep, ih _ _]
        simp only [feSpecGo]
        rw [if_neg hseen, if_neg hlen]
        simp

theorem feSpecGo_filter : ∀ (l : List String) (seen : List String),
    feSpecGo seen l = dedupFirstGo seen (l.filter lenOK) := by
  intro l
  induction l with
  | nil => intro seen; simp [feSpecGo, dedupFirstGo]
  | cons x xs ih =>
    intro seen
    by_cases hlen : (byteLen x.toList < 4 || byteLen x.toList > 500) = true
    · have hl : ¬ lenOK x = true := by
        unfold lenOK; rw [hlen]; simp
      rw [List.filter_cons, if_neg hl]
      by_cases hseen : (seen.contains x) = true
      · have e : feSpecGo seen (x :: xs) = feSpecGo seen xs := by
          simp only [feSpecGo]; rw [if_pos hseen]
        rw [e, ih]
      · have e : feSpecGo seen (x :: xs) = feSpecGo seen xs := by
          simp only [feSpecGo]; rw [if_neg hseen, if_pos hlen]
        rw [e, ih]
    · have hc : (byteLen x.toList < 4 || byteLen x.toList > 500) = false := by
        rcases h2 : (byteLen x.toList < 4 || byteLen x.toList > 500) with _ | _
        · rfl
        · exact absurd h2 hlen
      have hl : lenOK x = true := by
        unfold lenOK; rw [hc]; rfl
      rw [List.filter_cons, if_pos hl]
      by_cases hseen : (seen.contains x) = true
      · have e1 : feSpecGo seen (x :: xs) = feSpecGo seen xs := by
          simp only [feSpecGo]; rw [if_pos hseen]
        have e2 : dedupFirstGo seen (x :: xs.filter lenOK) =
            dedupFirstGo seen (xs.filter lenOK) := by
          simp only [dedupFirstGo]; rw [if_pos hseen]
        rw [e1, e2, ih]
      · have e1 : feSpecGo seen (x :: xs) = x :: feSpecGo (x :: seen) xs := by
          simp only [feSpecGo]; rw [if_neg hseen, if_neg hlen]
        have e2 : dedupFirstGo seen (x :: xs.filter lenOK) =
            x :: dedupFirstGo (x :: seen) (xs.filter lenOK) := by
          simp only [dedupFirstGo]; rw [if_neg hseen]
        rw [e1, e2, ih]

theorem mem_dedupFirstGo : ∀ (l seen : List String) (x : String),
    x ∈ dedupFirstGo seen l → ¬ x ∈ seen := by
  intro l
  induction l with
  | nil => intro seen x hx; simp [dedupFirstGo] at hx
  | cons y ys ih =>
    intro seen x hx
    unfold dedupFirstGo at hx
    split at hx
    · exact ih _ _ hx
    · rcases List.mem_cons.mp hx with rfl | h2
      · rename_i hy
        exact fun hm => hy (List.elem_eq_true_of_mem hm)
      · intro hxs
        exact ih _ _ h2 (List.mem_cons_of_mem _ hxs)

theorem nodup_dedupFirstGo : ∀ (l seen : List String),
    (dedupFirstGo seen l).Nodup := by
  intro l
  induction l with
  | nil => intro seen; simp [dedupFirstGo]
  | cons y ys ih =>
    intro seen
    unfold dedupFirstGo
    split
    · exact ih _
    · refine List.nodup_cons.mpr ⟨?_, ih _⟩
      intro hmem
      exact mem_dedupFirstGo _ _ _ hmem (List.mem_cons_self _ _)

theorem count_dedupFirstGo : ∀ (l seen : List String) (x : String),
    (dedupFirstGo seen l).count x =
      if x ∈ seen then 0 else if x ∈ l then 1 else 0 := by
  intro l
  induction l with
  | nil => intro seen x; simp [dedupFirstGo]
  | cons y ys ih =>
    intro seen x
    by_cases hy : (seen.contains y) = true
    · have e : dedupFirstGo seen (y :: ys) = dedupFirstGo seen ys := by
        simp only [dedupFirstGo]; rw [if_pos hy]
      rw [e, ih]
      have hymem : y ∈ seen := List.mem_of_elem_eq_true hy
      by_cases hxs : x ∈ seen
      · simp [hxs]
      · have hxy : ¬ x = y := fun h => hxs (h ▸ hymem)
        simp [hxs, hxy, List.mem_cons]
    · have e : dedupFirstGo seen (y :: ys) = y :: dedupFirstGo (y :: seen) ys := by
        simp only [dedupFirstGo]; rw [if_neg hy]
      have hymem : ¬ y ∈ seen := fun hm => hy (List.elem_eq_true_of_mem hm)
      rw [e, List.count_cons, ih]
      by_cases hxy : x = y
      · subst hxy
        simp [hymem, List.mem_cons]
      · by_cases hxs : x ∈ seen
        · simp [hxs, hxy, Ne.symm hxy, List.mem_cons]
        · simp [hxs, hxy, Ne.symm hxy, List.mem_cons]

/-- Claim C3 (amended): the raw strings returned by `extract` are the
first-occurrence deduplication of the trimmed matches in pass order then
intra-pass order, restricted to those passing the 4-to-500-byte filter; they
are pairwise distinct, and a trimmed match within the byte filter appears
exactly once however many passes produce it (a match outside the filter
appears zero times, not once). -/
theorem fExtract_dedup_first : ∀ fullText : String,
    extractRaws fullText = dedupFirst ((allTrimmed fullText).filter lenOK) ∧
    (extractRaws fullText).Nodup ∧
    (∀ s : String, s ∈ allTrimmed fullText → lenOK s = true →
      (extractRaws fullText).count s = 1) := by
  intro text
  have he : extractRaws text = dedupFirst ((allTrimmed text).filter lenOK) := by
    unfold extractRaws fExtract allTrimmed dedupFirst
    dsimp only
    rw [feGo_raws text.toList (allSpans text.toList) [] []]
    rw [feSpecGo_filter]
    simp
  refine ⟨he, ?_, ?_⟩
  · rw [he]
    exact nodup_dedupFirstGo _ _
  · intro s hs hl
    rw [he]
    unfold dedupFirst
    rw [count_dedupFirstGo]
    have hmem : s ∈ (allTrimmed text).filter lenOK := List.mem_filter.mpr ⟨hs, hl⟩
    simp [hmem]

/-- Claim C3 (amended) witness: a pass-5 match within the byte filter
appears exactly once. -/
theorem fExtract_dedup_first_witness :
    "min(" ∈ allTrimmed "min(x)" ∧ lenOK "min(" = true ∧
    (extractRaws "min(x)").count "min(" = 1 :=
  ⟨by decide, by decide,
   (fExtract_dedup_first "min(x)").2.2 "min(" (by decide) (by decide)⟩

/-- Claim C3 (counterexample): the 503-byte line of `twoPassText` is matched
identically by the `equation` pass and by the `subscript_expr` pass, yet it
appears zero times (not exactly once) in the extraction result, because its
trimmed match exceeds the 500-byte cap. -/
theorem formula_two_pass_zero :
    twoPassText ∈ passTrimmed pEquation twoPassText ∧
    twoPassText ∈ passTrimmed pSubscript twoPassText ∧
    (extractRaws twoPassText).count twoPassText ≠ 1 := by
  decide

/-! ### Context-window bounds (C4) -/

theorem byteLen_cons (c : Char) (l : List Char) :
    byteLen (c :: l) = c.utf8Size + byteLen l := by
  simp [byteLen]

theorem charCount_cons (c : Char) (cs : List Char) (i : Nat) :
    charCount (c :: cs) i =
      if c.utf8Size ≤ i then charCount cs (i - c.utf8Size) + 1 else 0 := rfl

theorem floorCB_cons (c : Char) (cs : List Char) (i : Nat) :
    floorCB (c :: cs) i =
      if c.utf8Size ≤ i then c.utf8Size + floorCB cs (i - c.utf8Size) else 0 := rfl

theorem ceilCB_cons (c : Char) (cs : List Char) (i : Nat) :
    ceilCB (c :: cs) i =
      if i == 0 then 0 else c.utf8Size + ceilCB cs (i - c.utf8Size) := rfl

theorem boundary_cons {c : Char} {cs : List Char} {m : Nat} :
    IsBoundary (c :: cs) m →
    m = 0 ∨ (c.utf8Size ≤ m ∧ IsBoundary cs (m - c.utf8Size)) := by
  rintro ⟨n, hn⟩
  rcases n with _ | n
  · left
    simpa [byteLen] using hn.symm
  · right
    rw [List.take_succ_cons, byteLen_cons] at hn
    exact ⟨by omega, ⟨n, by omega⟩⟩

theorem charCount_le_self : ∀ (t : List Char) (i : Nat), charCount t i ≤ i := by
  intro t
  induction t with
  | nil => intro i; simp [charCount]
  | cons c cs ih =>
    intro i
    rw [charCount_cons]
    split
    · have := ih (i - c.utf8Size)
      have := Char.utf8Size_pos c
      omega
    · omega

theorem floorCB_le : ∀ (t : List Char) (i : Nat), floorCB t i ≤ i := by
  intro t
  induction t with
  | nil => intro i; simp [floorCB]
  | cons c cs ih =>
    intro i
    rw [floorCB_cons]
    split
    · have := ih (i - c.utf8Size)
      omega
    · omega

theorem ceilCB_zero : ∀ (t : List Char), ceilCB t 0 = 0 := by
  intro t
  cases t <;> simp [ceilCB]

theorem charCount_zero : ∀ (t : List Char), charCount t 0 = 0 := by
  intro t
  cases t with
  | nil => simp [charCount]
  | cons c cs =>
    rw [charCount_cons, if_neg (by have := Char.utf8Size_pos c; omega)]

theorem le_ceilCB : ∀ (t : List Char) (i : Nat), i ≤ byteLen t → i ≤ ceilCB t i := by
  intro t
  induction t with
  | nil =>
    intro i h
    simp [byteLen] at h
    simp [ceilCB, h]
  | cons c cs ih =>
    intro i h
    rw [byteLen_cons] at h
    rw [ceilCB_cons]
    split
    · rename_i h0
      have : i = 0 := by simpa using h0
      omega
    · by_cases hle : c.utf8Size ≤ i
      · have := ih (i - c.utf8Size) (by omega)
        omega
      · have h0' : i - c.utf8Size = 0 := by omega
        rw [h0', ceilCB_zero]
        omega

theorem byteLen_take_le : ∀ (t : List Char) (n : Nat),
    byteLen (t.take n) ≤ byteLen t := by
  intro t
  induction t with
  | nil => intro n; simp
  | cons c cs ih =>
    intro n
    cases n with
    | zero => simp [byteLen]
    | succ n =>
      rw [List.take_succ_cons, byteLen_cons, byteLen_cons]
      have := ih n
      omega

theorem floorCB_boundary : ∀ (t : List Char) (i : Nat), IsBoundary t (floorCB t i) := by
  intro t
  induction t with
  | nil => intro i; exact ⟨0, rfl⟩
  | cons c cs ih =>
    intro i
    rw [floorCB_cons]
    split
    · rcases ih (i - c.utf8Size) with ⟨n, hn⟩
      exact ⟨n + 1, by rw [List.take_succ_cons, byteLen_cons, hn]⟩
    · exact ⟨0, rfl⟩

theorem ceilCB_boundary : ∀ (t : List Char) (i : Nat), IsBoundary t (ceilCB t i) := by
  intro t
  induction t with
  | nil => intro i; exact ⟨0, rfl⟩
  | cons c cs ih =>
    intro i
    rw [ceilCB_cons]
    split
    · exact ⟨0, rfl⟩
    · rcases ih (i - c.utf8Size) with ⟨n, hn⟩
      exact ⟨n + 1, by rw [List.take_succ_cons, byteLen_cons, hn]⟩

theorem charCount_floor_sub : ∀ (t : List Char) (i m : Nat),
    IsBoundary t m → i ≤ m →
    charCount t m - charCount t (floorCB t i) ≤ m - i := by
  intro t
  induction t with
  | nil => intro i m _ _; simp [charCount]
  | cons c cs ih =>
    intro i m hb him
    rcases boundary_cons hb with rfl | ⟨hsz, hb'⟩
    · simp [charCount_zero]
    · have hpos := Char.utf8Size_pos c
      have e2 : charCount (c :: cs) m = charCount cs (m - c.utf8Size) + 1 := by
        rw [charCount_cons, if_pos hsz]
      by_cases hi : c.utf8Size ≤ i
      · have e1 : floorCB (c :: cs) i = c.utf8Size + floorCB cs (i - c.utf8Size) := by
          rw [floorCB_cons, if_pos hi]
        have e3 : charCount (c :: cs) (c.utf8Size + floorCB cs (i - c.utf8Size)) =
            charCount cs (floorCB cs (i - c.utf8Size)) + 1 := by
          rw [charCount_cons, if_pos (Nat.le_add_right _ _),
            Nat.add_sub_cancel_left]
        rw [e1, e3, e2]
        have := ih (i - c.utf8Size) (m - c.utf8Size) hb' (by omega)
        omega
      · have e1 : floorCB (c :: cs) i = 0 := by
          rw [floorCB_cons, if_neg hi]
        rw [e1, charCount_zero, e2]
        have hle := charCount_le_self cs (m - c.utf8Size)
        omega

theorem charCount_ceil_le : ∀ (t : List Char) (x : Nat),
    charCount t (ceilCB t x) ≤ x := by
  intro t
  induction t with
  | nil => intro x; simp [ceilCB, charCount]
  | cons c cs ih =>
    intro x
    rw [ceilCB_cons]
    split
    · rw [charCount_zero]
      omega
    · rename_i h0
      have hx : ¬ x = 0 := by simpa using h0
      have hpos := Char.utf8Size_pos c
      have e : charCount (c :: cs) (c.utf8Size + ceilCB cs (x - c.utf8Size)) =
          charCount cs (ceilCB cs (x - c.utf8Size)) + 1 := by
        rw [charCount_cons, if_pos (Nat.le_add_right _ _),
          Nat.add_sub_cancel_left]
      rw [e]
      by_cases hle : c.utf8Size ≤ x
      · have := ih (x - c.utf8Size)
        omega
      · have h1 : x - c.utf8Size = 0 := by omega
        rw [h1, ceilCB_zero, charCount_zero]
        omega

theorem charCount_ceil_sub : ∀ (t : List Char) (j m : Nat),
    IsBoundary t m → m ≤ j →
    charCount t (ceilCB t j) - charCount t m ≤ j - m := by
  intro t
  induction t with
  | nil => intro j m _ _; simp [ceilCB, charCount]
  | cons c cs ih =>
    intro j m hb hmj
    rcases boundary_cons hb with rfl | ⟨hsz, hb'⟩
    · have := charCount_ceil_le (c :: cs) j
      omega
    · have hpos := Char.utf8Size_pos c
      have e1 : ceilCB (c :: cs) j = c.utf8Size + ceilCB cs (j - c.utf8Size) := by
        rw [ceilCB_cons, if_neg (by simp; omega)]
      have e2 : charCount (c :: cs) m = charCount cs (m - c.utf8Size) + 1 := by
        rw [charCount_cons, if_pos hsz]
      have e3 : charCount (c :: cs) (c.utf8Size + ceilCB cs (j - c.utf8Size)) =
          charCount cs (ceilCB cs (j - c.utf8Size)) + 1 := by
        rw [charCount_cons, if_pos (Nat.le_add_right _ _),
          Nat.add_sub_cancel_left]
      rw [e1, e3, e2]
      have := ih (j - c.utf8Size) (m - c.utf8Size) hb' (by omega)
      omega

theorem trim_decomp : ∀ l : List Char, ∃ a b, a ++ trimChars l ++ b = l := by
  intro l
  refine ⟨l.takeWhile isWs, ((l.dropWhile isWs).reverse.takeWhile isWs).reverse, ?_⟩
  unfold trimChars
  conv_rhs => rw [← List.takeWhile_append_dropWhile isWs l]
  rw [List.append_assoc]
  congr 1
  rw [show ((l.dropWhile isWs).reverse.dropWhile isWs).reverse ++
        ((l.dropWhile isWs).reverse.takeWhile isWs).reverse =
      ((l.dropWhile isWs).reverse.takeWhile isWs ++
        (l.dropWhile isWs).reverse.dropWhile isWs).reverse from by
    rw [List.reverse_append]]
  rw [List.takeWhile_append_dropWhile, List.reverse_reverse]

theorem feStep_cases (t : List Char) (st : List String × List Formula)
    (se : Nat × Nat) :
    feStep t st se = st ∨
    feStep t st se = (String.mk (trimChars (spanStr t se)) :: st.1,
      st.2 ++ [⟨String.mk (trimChars (spanStr t se)),
               mkContext t (byteLen (t.take se.1)) (byteLen (t.take se.2))⟩]) := by
  unfold feStep
  dsimp only
  split
  · exact Or.inl rfl
  · split
    · exact Or.inl rfl
    · exact Or.inr rfl

theorem feGo_context (t : List Char) :
    ∀ (spans : List (Nat × Nat)) (st : List String × List Formula) (f : Formula),
      f ∈ (spans.foldl (feStep t) st).2 →
      f ∈ st.2 ∨ ∃ se ∈ spans,
        f.raw = String.mk (trimChars (spanStr t se)) ∧
        f.context = mkContext t (byteLen (t.take se.1)) (byteLen (t.take se.2)) := by
  intro spans
  induction spans with
  | nil => intro st f hf; exact Or.inl hf
  | cons se spans ih =>
    intro st f hf
    rw [List.foldl_cons] at hf
    rcases ih _ f hf with hin | ⟨se', hse', hraw, hctx⟩
    · rcases feStep_cases t st se with he | he
      · rw [he] at hin
        exact Or.inl hin
      · rw [he] at hin
        rcases List.mem_append.mp hin with h1 | h2
        · exact Or.inl h1
        · right
          refine ⟨se, List.mem_cons_self _ _, ?_, ?_⟩
          · rw [List.mem_singleton.mp h2]
          · rw [List.mem_singleton.mp h2]
    · exact Or.inr ⟨se', List.mem_cons_of_mem _ hse', hraw, hctx⟩

/-- Claim C4: every extracted formula comes from a match span of the nine
passes whose trimmed text is exactly the formula's raw string, and the
formula's context is the trim of a slice of the text between character
boundaries obtained by snapping that match's 50-byte window outward; the
slice starts at most 50 characters before the match start and ends at most
50 characters after the match end, no character is split, and the context
is a contiguous substring of the source text. -/
theorem fExtract_context_ok : ∀ (fullText : String) (f : Formula),
    f ∈ fExtract fullText → CtxOK fullText f := by
  intro text f hf
  unfold fExtract at hf
  dsimp only at hf
  rcases feGo_context text.toList (allSpans text.toList) ([], []) f hf with
    h0 | ⟨se, hsemem, hraw, hctx⟩
  · simp at h0
  · refine ⟨se, hsemem, hraw, ?_⟩
    dsimp only
    have hmeL : byteLen (text.toList.take se.2) ≤ byteLen text.toList :=
      byteLen_take_le _ _
    refine ⟨⟨se.1, rfl⟩, ⟨se.2, rfl⟩, floorCB_boundary _ _, ceilCB_boundary _ _,
      ?_, ?_, ?_, ?_, hctx, ?_, ?_⟩
    · exact le_trans (floorCB_le _ _) (Nat.sub_le _ _)
    · refine le_trans (show byteLen (text.toList.take se.2) ≤
          min (byteLen (text.toList.take se.2) + 50) (byteLen text.toList) from by
            omega)
        (le_ceilCB _ _ (by omega))
    · have := charCount_floor_sub text.toList
        (byteLen (text.toList.take se.1) - 50) (byteLen (text.toList.take se.1))
        ⟨se.1, rfl⟩ (Nat.sub_le _ _)
      omega
    · have := charCount_ceil_sub text.toList
        (min (byteLen (text.toList.take se.2) + 50) (byteLen text.toList))
        (byteLen (text.toList.take se.2)) ⟨se.2, rfl⟩ (by omega)
      omega
    · rw [hctx]
      rfl
    · obtain ⟨a, b, hab⟩ := trim_decomp (byteSeg text.toList
        (floorCB text.toList (byteLen (text.toList.take se.1) - 50))
        (ceilCB text.toList
          (min (byteLen (text.toList.take se.2) + 50) (byteLen text.toList))))
      refine ⟨(text.toList.take (charCount text.toList
          (ceilCB text.toList (min (byteLen (text.toList.take se.2) + 50)
            (byteLen text.toList))))).take
          (charCount text.toList
            (floorCB text.toList (byteLen (text.toList.take se.1) - 50))) ++ a,
        b ++ text.toList.drop (charCount text.toList
          (ceilCB text.toList (min (byteLen (text.toList.take se.2) + 50)
            (byteLen text.toList)))), ?_⟩
      rw [List.append_assoc, List.append_assoc, ← List.append_assoc a,
        ← List.append_assoc (a ++ trimChars _), hab]
      unfold byteSeg
      rw [← List.append_assoc, List.take_append_drop, List.take_append_drop]

/-- Claim C4 witness: the single formula of a small text, with its context
equal to the whole text. -/
theorem fExtract_context_ok_witness :
    (Formula.mk "x = a + b" "x = a + b") ∈ fExtract "x = a + b" ∧
    CtxOK "x = a + b" (Formula.mk "x = a + b" "x = a + b") :=
  ⟨by decide,
   fExtract_context_ok "x = a + b" (Formula.mk "x = a + b" "x = a + b") (by decide)⟩

end Bx








